import Mathlib

set_option maxHeartbeats 1600000
set_option maxRecDepth 16000

/-!
Shallow embedding of `smart_rename_papers.py` (a DOI-based PDF renamer) and
verification of its specification claims.

Python strings are modelled as Lean `String` / `List Char`; `None` values as
`Option`; the fallible Crossref lookup as an `Except String CrossrefMsg`
input; the filesystem directory as a `List String` of entry names.

The source uses `re` for three patterns (DOI, e-mail, ORCID) and for
whitespace collapsing.  We embed a small leftmost-greedy backtracking
matcher over token lists (`Tok`), which is the semantics of Python `re`
for these alternation-free patterns.
-/

/-- Whitespace characters matched by Python `\s` (ASCII range). -/
def pyIsSpace (c : Char) : Bool :=
  c = ' ' || c = '\t' || c = '\n' || c = '\r' || c = '\x0b' || c = '\x0c'

/-- Word characters for Python `\b` word boundaries (ASCII range). -/
def isWordChar (c : Char) : Bool :=
  c.isAlpha || c.isDigit || c = '_'

/-- Regex tokens: a literal character, a greedy bounded repetition of a
character class (`lo` to `hi` occurrences, `none` = unbounded), or a word
boundary `\b`. -/
inductive Tok where
  | lit (c : Char)
  | rep (f : Char → Bool) (lo : Nat) (hi : Option Nat)
  | wb

/-- Word-character test on an optional character (text edges count as
non-word). -/
def optWord : Option Char → Bool
  | none => false
  | some c => isWordChar c

/-- Python `\b`: positions where word-ness changes between neighbours. -/
def isBoundary (prev nxt : Option Char) : Bool :=
  optWord prev != optWord nxt

/-- Backtracking driver for a greedy repetition: try `k` occurrences for
`k` descending from the given start down to `lo`, returning the first
success of the continuation `attempt`. -/
def tryDesc (attempt : Nat → Option Nat) (lo : Nat) : Nat → Option Nat
  | 0 => if lo = 0 then attempt 0 else none
  | k+1 =>
      if k+1 < lo then none
      else
        match attempt (k+1) with
        | some r => some r
        | none => tryDesc attempt lo k

/-- Match a token list at the head of the input, returning the number of
characters consumed (leftmost-greedy with full backtracking).  `prev` is
the character just before the current position, for `\b` checks. -/
def matchToks : List Tok → Option Char → List Char → Option Nat
  | [], _, _ => some 0
  | .lit _ :: _, _, [] => none
  | .lit c :: ts, _, x :: xs =>
      if x = c then (matchToks ts (some x) xs).map (· + 1) else none
  | .wb :: ts, prev, xs =>
      if isBoundary prev xs.head? then matchToks ts prev xs else none
  | .rep f lo hi :: ts, prev, xs =>
      let run := (xs.takeWhile f).length
      let n := match hi with
        | none => run
        | some h => min h run
      tryDesc (fun k =>
        (matchToks ts (if k = 0 then prev else xs.get? (k-1)) (xs.drop k)).map (· + k)) lo n

/-- Python `re.sub(pattern, repl, text)` for patterns that never match the
empty string (all three patterns in the source contain a mandatory
one-or-more part): scan left to right, replace each leftmost match, resume
after it.  Fuel is the input length; each step consumes at least one
character, so the fuel never runs out. -/
def subAllAux (toks : List Tok) (repl : List Char) : Nat → Option Char → List Char → List Char
  | 0, _, _ => []
  | _+1, _, [] => []
  | fuel+1, prev, c :: cs =>
      match matchToks toks prev (c :: cs) with
      | some (n+1) =>
          repl ++ subAllAux toks repl fuel ((c :: cs).get? n) ((c :: cs).drop (n+1))
      | _ => c :: subAllAux toks repl fuel (some c) cs

/-- Replace every non-overlapping leftmost match of `toks` in `cs` by
`repl`. -/
def subAll (toks : List Tok) (repl : List Char) (cs : List Char) : List Char :=
  subAllAux toks repl cs.length none cs

/-- Python `re.search`: the match at the leftmost position where the
pattern matches, as the list of matched characters. -/
def searchAux (toks : List Tok) : Option Char → List Char → Option (List Char)
  | prev, [] =>
      match matchToks toks prev [] with
      | some _ => some []
      | none => none
  | prev, c :: cs =>
      match matchToks toks prev (c :: cs) with
      | some n => some ((c :: cs).take n)
      | none => searchAux toks (some c) cs

/-! ## Text Sanitizer (`sanitize`, `truncate_filename`) -/

/-- Source constant `INVALID_CHARS = r'<>:"/\\|?*'` (the raw string holds
two backslash characters, a harmless duplicate). -/
def INVALID_CHARS : List Char :=
  ['<', '>', ':', '"', '/', '\\', '\\', '|', '?', '*']

/-- The loop `for ch in INVALID_CHARS: text = text.replace(ch, ' ')`:
each invalid character becomes a single space. -/
def replaceInvalid (cs : List Char) : List Char :=
  cs.map (fun c => if c ∈ INVALID_CHARS then ' ' else c)

/-- Pattern `\s+`. -/
def wsToks : List Tok := [.rep pyIsSpace 1 none]

/-- Python `str.strip()` on character lists. -/
def stripList (cs : List Char) : List Char :=
  ((cs.dropWhile pyIsSpace).reverse.dropWhile pyIsSpace).reverse

/-- Python `str.rstrip()` on character lists. -/
def rstripList (cs : List Char) : List Char :=
  (cs.reverse.dropWhile pyIsSpace).reverse

/-- Source `sanitize` on an actual string: replace invalid characters by
spaces, collapse whitespace runs (`re.sub(r'\s+', ' ', text)`), strip. -/
def sanitizeS (s : String) : String :=
  ⟨stripList (subAll wsToks [' '] (replaceInvalid s.data))⟩

/-- Source `sanitize` including the `None` guard (`text = str(text) if
text is not None else ''`): `none` maps to the empty string. -/
def sanitize : Option String → String
  | none => sanitizeS ""
  | some s => sanitizeS s

/-- Source `truncate_filename`: identity up to `maxLen` characters,
otherwise the first `maxLen` characters with trailing whitespace
stripped. -/
def truncate_filename (name : String) (maxLen : Nat := 180) : String :=
  if name.length ≤ maxLen then name else ⟨rstripList (name.data.take maxLen)⟩

example : sanitizeS "a  <b>:c" = "a b c" := by decide
example : sanitizeS "  hi   there\t\n " = "hi there" := by decide
example : sanitize none = "" := by decide

/-! ## Name Initializer (`to_initials`) -/

/-- Character class `[a-zA-Z0-9._%+-]` (e-mail local part). -/
def isLocalChar (c : Char) : Bool :=
  c.isAlpha || c.isDigit || c = '.' || c = '_' || c = '%' || c = '+' || c = '-'

/-- Character class `[a-zA-Z0-9.-]` (e-mail domain). -/
def isDomainChar (c : Char) : Bool :=
  c.isAlpha || c.isDigit || c = '.' || c = '-'

/-- Pattern `\b[a-zA-Z0-9._%+-]+@[a-zA-Z0-9.-]+\.[A-Za-z]{2,}\b`. -/
def emailToks : List Tok :=
  [.wb, .rep isLocalChar 1 none, .lit '@', .rep isDomainChar 1 none,
   .lit '.', .rep Char.isAlpha 2 none, .wb]

/-- Case-insensitive literal (flag `re.I`), as a width-one class. -/
def ciTok (c : Char) : Tok :=
  .rep (fun x => x.toLower = c) 1 (some 1)

/-- Pattern `\bORCID\b[:\s]*\S+` with `re.I`. -/
def orcidToks : List Tok :=
  [.wb, ciTok 'o', ciTok 'r', ciTok 'c', ciTok 'i', ciTok 'd', .wb,
   .rep (fun c => c = ':' || pyIsSpace c) 0 none,
   .rep (fun c => !pyIsSpace c) 1 none]

/-- Separator class of `re.split(r'[\s\-]+', ...)`. -/
def isSepChar (c : Char) : Bool :=
  pyIsSpace c || c = '-'

/-- Python `re.split(r'[\s\-]+', s)`: pieces between separator runs
(empty pieces kept at the edges, exactly as `re.split` produces them). -/
def splitRuns : List Char → List (List Char)
  | [] => [[]]
  | c :: cs =>
    let r := splitRuns cs
    if isSepChar c then
      match cs with
      | d :: _ => if isSepChar d then r else [] :: r
      | [] => [] :: r
    else
      match r with
      | p :: ps => (c :: p) :: ps
      | [] => [[c]]

/-- Source `to_initials`: `"NA"` for empty input; strip e-mails and
`ORCID:` tokens; split the stripped remainder on whitespace/hyphen runs;
keep the first character of each token whose first character is
alphabetic; concatenate and uppercase; `"NA"` if none remain. -/
def to_initials (name : String) : String :=
  if name = "" then "NA"
  else
    let cs := subAll emailToks [' '] name.data
    let cs := subAll orcidToks [' '] cs
    let toks := splitRuns (stripList cs)
    let initials := toks.filterMap (fun t =>
      match t with
      | c :: _ => if c.isAlpha then some c else none
      | [] => none)
    if initials.isEmpty then "NA" else ⟨initials.map Char.toUpper⟩

example : to_initials "" = "NA" := by decide
example : to_initials "Jane Q. Public" = "JQP" := by decide
example : to_initials "jane.doe@example.com" = "NA" := by decide
example : to_initials "Jane Doe" = "JD" := by decide
example : to_initials "Unknown Author" = "UA" := by decide

/-! ## Identifier Extractor (`find_doi`) -/

/-- Character class `[-._;()/:A-Z0-9]` under `re.I` (so lowercase letters
are included). -/
def isDoiBodyChar (c : Char) : Bool :=
  c = '-' || c = '.' || c = '_' || c = ';' || c = '(' || c = ')' ||
  c = '/' || c = ':' || c.isAlpha || c.isDigit

/-- Source `DOI_PATTERN = re.compile(r'10\.\d{4,9}/[-._;()/:A-Z0-9]+', re.I)`. -/
def doiToks : List Tok :=
  [.lit '1', .lit '0', .lit '.', .rep Char.isDigit 4 (some 9),
   .lit '/', .rep isDoiBodyChar 1 none]

/-- Trailing characters stripped by `rstrip(').,;]}>')`. -/
def DOI_TRAIL : List Char := [')', '.', ',', ';', ']', '}', '>']

/-- Source `find_doi`: first `DOI_PATTERN` match in the text with trailing
punctuation stripped, or `none`. -/
def find_doi (text : String) : Option String :=
  (searchAux doiToks none text.data).map
    (fun m => ⟨(m.reverse.dropWhile (· ∈ DOI_TRAIL)).reverse⟩)

example : find_doi "see 10.1000/xyz123." = some "10.1000/xyz123" := by decide
example : find_doi "no identifier here" = none := by decide
example : find_doi "x 10.123/a 10.4567/b)" = some "10.4567/b" := by decide

/-! ## Filename Composer (`compose_name`) -/

/-- Python truthiness-based defaulting `x or d` for an optional string. -/
def pyOr (o : Option String) (d : String) : String :=
  match o with
  | none => d
  | some s => if s = "" then d else s

/-- Source `compose_name`: sanitize publisher and title (with defaults),
reduce the author to initials, format, truncate to the 180 budget. -/
def compose_name (publisher title first_author : Option String) : String :=
  truncate_filename
    (sanitizeS (pyOr publisher "Unknown Publisher") ++ " - " ++
     sanitizeS (pyOr title "Untitled") ++ " - " ++
     to_initials (pyOr first_author "Unknown Author") ++ ".pdf")

example : compose_name none none none = "Unknown Publisher - Untitled - UA.pdf" := by decide

/-! ## Collision-Safe Renamer (`safe_rename`)

The filesystem is modelled as the list of entry names in the directory of
the path being renamed (the source only ever renames within one
directory).  Python's decimal formatting of the counter `i` in
`f"{stem} ({i}){suf}"` is embedded as `natRepr`. -/

/-- Decimal digit characters. -/
def decDigitChar : Nat → Char
  | 0 => '0' | 1 => '1' | 2 => '2' | 3 => '3' | 4 => '4'
  | 5 => '5' | 6 => '6' | 7 => '7' | 8 => '8' | _ => '9'

/-- Decimal rendering, most significant digit first (fuel-based so it
reduces in the kernel; fuel `n+1` always suffices). -/
def natReprAux : Nat → Nat → List Char → List Char
  | 0, _, acc => acc
  | fuel+1, n, acc =>
      if n < 10 then decDigitChar n :: acc
      else natReprAux fuel (n / 10) (decDigitChar (n % 10) :: acc)

/-- Decimal rendering of a natural number, as Python formats an `int`. -/
def natRepr (n : Nat) : String :=
  ⟨natReprAux (n+1) n []⟩

example : natRepr 0 = "0" := by decide
example : natRepr 1 = "1" := by decide
example : natRepr 207 = "207" := by decide

/-- Index of the last `'.'` in a name, if any (Python `str.rfind`). -/
def rfindDot (cs : List Char) : Option Nat :=
  ((cs.enum.filter (fun p => p.2 = '.')).getLast?).map (fun p => p.1)

/-- Python `pathlib` stem/suffix split: the name splits at the last dot
only when that dot is neither the first nor the last character. -/
def pathSplit (name : String) : String × String :=
  match rfindDot name.data with
  | some i =>
      if 0 < i ∧ i < name.length - 1 then
        (⟨name.data.take i⟩, ⟨name.data.drop i⟩)
      else (name, "")
  | none => (name, "")

example : pathSplit "Foo.pdf" = ("Foo", ".pdf") := by decide
example : pathSplit "archive.tar.gz" = ("archive.tar", ".gz") := by decide
example : pathSplit ".hidden" = (".hidden", "") := by decide
example : pathSplit "nodot" = ("nodot", "") := by decide

/-- The disambiguated candidate `f"{stem} ({i}){suf}"`. -/
def candName (stem suf : String) (i : Nat) : String :=
  stem ++ " (" ++ natRepr i ++ ")" ++ suf

/-- The `while True` search for the first unused counter, starting at
`i`: fuel-based; fuel `fs.length + 1` suffices because the candidates are
pairwise distinct (proved below), so the loop always terminates within it
exactly as the unbounded source loop does. -/
def firstFreeAux (fs : List String) (stem suf : String) : Nat → Nat → Nat
  | 0, i => i
  | fuel+1, i =>
      if candName stem suf i ∈ fs then firstFreeAux fs stem suf fuel (i+1) else i

/-- Source `safe_rename` over the directory model: returns the final name
and the directory contents afterwards.  `curName` is the name of the file
being renamed (an entry of `fs`); equality of the paths reduces to
equality of the names since both share the directory. -/
def safe_rename (fs : List String) (curName newName : String) (dryRun : Bool) :
    String × List String :=
  if newName = curName then (curName, fs)
  else
    let target :=
      if newName ∈ fs then
        let p := pathSplit newName
        candName p.1 p.2 (firstFreeAux fs p.1 p.2 (fs.length + 1) 1)
      else newName
    if dryRun then (target, fs) else (target, target :: fs.erase curName)

example :
    (safe_rename ["Bar.pdf", "Foo.pdf"] "Bar.pdf" "Foo.pdf" false).1 = "Foo (1).pdf" := by
  decide
example :
    (safe_rename ["Bar.pdf", "Foo.pdf", "Foo (1).pdf"] "Bar.pdf" "Foo.pdf" false).1 =
      "Foo (2).pdf" := by
  decide

/-! ## Resolution Pipeline (`process_pdf`)

The PDF parsing library and the network are external collaborators: the
document's leading text, its embedded metadata record, and the outcome of
the Crossref lookup are inputs of the embedded pipeline.  A lookup that
raises is an `Except.error` carrying the exception text. -/

/-- One Crossref author entry: `{given, family}`, each key optional
(`a0.get('given','')`). -/
structure CrossrefAuthor where
  given : Option String
  family : Option String

/-- The `message` object of a Crossref response: optional `title` list,
`author` list, `publisher` string.  Absent keys are the empty list /
`none` (Python truthiness treats both alike). -/
structure CrossrefMsg where
  title : List String
  author : List CrossrefAuthor
  publisher : Option String

/-- Embedded PDF metadata (`doc.metadata`): optional `title`, `author`. -/
structure EmbeddedMeta where
  title : Option String
  author : Option String

/-- Python truthiness of an optional string (`None` and `''` are falsy). -/
def truthy : Option String → Bool
  | none => false
  | some s => s ≠ ""

/-- Pipeline state: the three fields being resolved (initially `None`)
plus the provenance log, in order. -/
structure PState where
  title : Option String
  firstAuthor : Option String
  publisher : Option String
  log : List String
  deriving DecidableEq

/-- Initial state `title, first_author, publisher = None, None, None`. -/
def initState : PState :=
  ⟨none, none, none, []⟩

/-- Python `str.strip()` at the `String` level. -/
def pyStrip (s : String) : String :=
  ⟨stripList s.data⟩

/-- Step 1 of `process_pdf` (the guarded Crossref block): skipped wholly
under `local_only`; otherwise extract a DOI from the leading text and, if
one is found, consult the registry; a lookup failure is logged and leaves
the fields untouched; on success each still-unset field is filled from
the record. -/
def stageRegistry (localOnly : Bool) (textFirst : String)
    (registry : Except String CrossrefMsg) (st : PState) : PState :=
  if localOnly then st
  else
    match find_doi textFirst with
    | none => st
    | some doi =>
      let st1 : PState := { st with log := st.log ++ ["found DOI " ++ doi] }
      match registry with
      | .error e => { st1 with log := st1.log ++ ["Crossref failed: " ++ e] }
      | .ok msg =>
        let st2 : PState :=
          match msg.title with
          | [] => st1
          | t :: _ =>
              if truthy st1.title then st1
              else { st1 with title := some t, log := st1.log ++ ["title from Crossref"] }
        let st3 : PState :=
          match msg.author with
          | [] => st2
          | a0 :: _ =>
              if truthy st2.firstAuthor then st2
              else
                { st2 with
                  firstAuthor := some (pyStrip (a0.given.getD "" ++ " " ++ a0.family.getD "")),
                  log := st2.log ++ ["author from Crossref"] }
        match msg.publisher with
        | none => st3
        | some p =>
            if truthy st3.publisher || p = "" then st3
            else { st3 with publisher := some p, log := st3.log ++ ["publisher from Crossref"] }

/-- Step 2 of `process_pdf`: embedded-metadata fallback for title and
author (guarded by `if not all([title, first_author])`, which is implied
by either inner guard and therefore by each setter condition). -/
def stageEmbedded (meta : EmbeddedMeta) (st : PState) : PState :=
  if truthy st.title && truthy st.firstAuthor then st
  else
    let st1 : PState :=
      match meta.title with
      | none => st
      | some t =>
          if truthy st.title || t = "" then st
          else { st with title := some (pyStrip t), log := st.log ++ ["title from embedded metadata"] }
    match meta.author with
    | none => st1
    | some a =>
        if truthy st1.firstAuthor || a = "" then st1
        else
          { st1 with firstAuthor := some (pyStrip a),
                     log := st1.log ++ ["author from embedded metadata"] }

/-- Step 3 of `process_pdf`: default fallbacks — filename stem for the
title, literal strings for author and publisher. -/
def stageDefaults (stem : String) (st : PState) : PState :=
  let st1 : PState :=
    if truthy st.title then st
    else { st with title := some stem, log := st.log ++ ["fallback: title from filename"] }
  let st2 : PState :=
    if truthy st1.firstAuthor then st1
    else { st1 with firstAuthor := some "Unknown Author",
                    log := st1.log ++ ["fallback: unknown author"] }
  if truthy st2.publisher then st2
  else { st2 with publisher := some "Unknown Publisher",
                  log := st2.log ++ ["fallback: unknown publisher"] }

/-- Source `process_pdf` after the document has been opened: the three
resolution stages in order, over the opened document's leading text
(`textFirst`), its embedded metadata, the lookup outcome, and the
filename stem of the path. -/
def process_pdf (textFirst : String) (localOnly : Bool)
    (registry : Except String CrossrefMsg) (meta : EmbeddedMeta) (stem : String) : PState :=
  stageDefaults stem (stageEmbedded meta (stageRegistry localOnly textFirst registry initState))

example :
    process_pdf "no identifier here" true (.error "net") ⟨some "Foo", some "A. Smith"⟩ "doc" =
      ⟨some "Foo", some "A. Smith", some "Unknown Publisher",
       ["title from embedded metadata", "author from embedded metadata",
        "fallback: unknown publisher"]⟩ := by
  decide

/-! ## Derived definitions used by the verification -/

/-- Test whether `s` ends with `pat`, by comparing the reversed data. -/
def strEndsWith (s pat : String) : Bool :=
  s.data.reverse.take pat.data.length == pat.data.reverse

/-- A 200-character title used by the specification's example. -/
def longTitle : String := ⟨List.replicate 200 'a'⟩

/-- Numeric value of a decimal digit character. -/
def charVal (c : Char) : Nat := c.toNat - 48

/-- Value of a most-significant-first decimal digit string. -/
def digitsVal (l : List Char) : Nat :=
  l.foldl (fun a c => a * 10 + charVal c) 0

/-- Declarative shape of a `DOI_PATTERN` match: `"10."`, then 4 to 9
digits, then `'/'`, then a non-empty run of body-class characters. -/
def DoiShape (m : List Char) : Prop :=
  ∃ ds body, 4 ≤ ds.length ∧ ds.length ≤ 9 ∧ (∀ c ∈ ds, Char.isDigit c = true) ∧
    body ≠ [] ∧ (∀ c ∈ body, isDoiBodyChar c = true) ∧
    m = '1' :: '0' :: '.' :: (ds ++ '/' :: body)

/-- The character preceding the suffix `rest` when `pre ++ rest` is
scanned with initial preceding character `prev`. -/
def lastOpt (prev : Option Char) (pre : List Char) : Option Char :=
  match pre with
  | [] => prev
  | _ => pre.getLast?

/-! ## Stage bookkeeping lemmas

Each stage only ever appends to the log, and the appended entries and the
resulting fields depend only on the incoming fields, not on the incoming
log.  These equations make that explicit. -/

theorem stageRegistry_log_split (lo : Bool) (t : String) (r : Except String CrossrefMsg)
    (a b c : Option String) (l : List String) :
    stageRegistry lo t r ⟨a, b, c, l⟩ =
      { stageRegistry lo t r ⟨a, b, c, []⟩ with
        log := l ++ (stageRegistry lo t r ⟨a, b, c, []⟩).log } := by
  unfold stageRegistry
  split
  · simp
  · split
    · simp
    · cases r with
      | error e => simp
      | ok msg =>
        cases ht : msg.title <;> cases ha : msg.author <;> cases hp : msg.publisher <;>
          (repeat' split) <;> simp_all <;> (repeat' split) <;> simp_all

theorem stageEmbedded_log_split (meta : EmbeddedMeta) (a b c : Option String) (l : List String) :
    stageEmbedded meta ⟨a, b, c, l⟩ =
      { stageEmbedded meta ⟨a, b, c, []⟩ with
        log := l ++ (stageEmbedded meta ⟨a, b, c, []⟩).log } := by
  unfold stageEmbedded
  split
  · simp_all
  · cases meta.title <;> cases meta.author <;> simp_all <;> (repeat' split) <;> simp_all

theorem stageDefaults_log_split (stem : String) (a b c : Option String) (l : List String) :
    stageDefaults stem ⟨a, b, c, l⟩ =
      { stageDefaults stem ⟨a, b, c, []⟩ with
        log := l ++ (stageDefaults stem ⟨a, b, c, []⟩).log } := by
  unfold stageDefaults
  cases ha : truthy a <;> cases hb : truthy b <;> cases hc : truthy c <;>
    simp [ha, hb, hc]

theorem stageRegistry_keeps_field (lo : Bool) (t : String) (r : Except String CrossrefMsg)
    (st : PState) :
    (truthy st.title = true → (stageRegistry lo t r st).title = st.title) ∧
    (truthy st.firstAuthor = true → (stageRegistry lo t r st).firstAuthor = st.firstAuthor) ∧
    (truthy st.publisher = true → (stageRegistry lo t r st).publisher = st.publisher) := by
  unfold stageRegistry
  split
  · simp
  · split
    · simp
    · cases r with
      | error e => simp
      | ok msg =>
        cases ht : msg.title <;> cases ha : msg.author <;> cases hp : msg.publisher <;>
          (repeat' split) <;> simp_all <;> (repeat' split) <;> simp_all

theorem stageEmbedded_keeps_field (meta : EmbeddedMeta) (st : PState) :
    (truthy st.title = true → (stageEmbedded meta st).title = st.title) ∧
    (truthy st.firstAuthor = true → (stageEmbedded meta st).firstAuthor = st.firstAuthor) ∧
    ((stageEmbedded meta st).publisher = st.publisher) := by
  unfold stageEmbedded
  split
  · simp
  · cases meta.title <;> cases meta.author <;> (repeat' split) <;> simp_all <;>
      (repeat' split) <;> simp_all

theorem stageDefaults_resolves (stem : String) (st : PState) :
    ((stageDefaults stem st).title = if truthy st.title then st.title else some stem) ∧
    ((stageDefaults stem st).firstAuthor =
      if truthy st.firstAuthor then st.firstAuthor else some "Unknown Author") ∧
    ((stageDefaults stem st).publisher =
      if truthy st.publisher then st.publisher else some "Unknown Publisher") ∧
    (truthy st.title = false → "fallback: title from filename" ∈ (stageDefaults stem st).log) ∧
    (truthy st.firstAuthor = false → "fallback: unknown author" ∈ (stageDefaults stem st).log) ∧
    (truthy st.publisher = false →
      "fallback: unknown publisher" ∈ (stageDefaults stem st).log) := by
  unfold stageDefaults
  cases ha : truthy st.title <;> cases hb : truthy st.firstAuthor <;>
    cases hc : truthy st.publisher <;> simp [ha, hb, hc]

theorem stageEmbedded_log_mono (meta : EmbeddedMeta) (st : PState) (x : String)
    (h : x ∈ st.log) : x ∈ (stageEmbedded meta st).log := by
  obtain ⟨a, b, c, l⟩ := st
  rw [stageEmbedded_log_split]
  simp only [List.mem_append]
  exact Or.inl h

theorem stageDefaults_log_mono (stem : String) (st : PState) (x : String)
    (h : x ∈ st.log) : x ∈ (stageDefaults stem st).log := by
  obtain ⟨a, b, c, l⟩ := st
  rw [stageDefaults_log_split]
  simp only [List.mem_append]
  exact Or.inl h

/-! ## Claim C1: first-writer-wins across the priority chain -/

/-- Claim C1: Every stage of the priority chain (registry, embedded metadata,
default fallback) leaves a field untouched once it carries a value, so
along a resolution each field of the final identity is filled at most
once; and the title's final fallback is the source filename stem. -/
theorem process_pdf_first_writer_wins (localOnly : Bool) (textFirst : String)
    (registry : Except String CrossrefMsg) (meta : EmbeddedMeta) (stem : String)
    (st : PState) :
    (truthy st.title = true →
      (stageRegistry localOnly textFirst registry st).title = st.title ∧
      (stageEmbedded meta st).title = st.title ∧
      (stageDefaults stem st).title = st.title) ∧
    (truthy st.firstAuthor = true →
      (stageRegistry localOnly textFirst registry st).firstAuthor = st.firstAuthor ∧
      (stageEmbedded meta st).firstAuthor = st.firstAuthor ∧
      (stageDefaults stem st).firstAuthor = st.firstAuthor) ∧
    (truthy st.publisher = true →
      (stageRegistry localOnly textFirst registry st).publisher = st.publisher ∧
      (stageEmbedded meta st).publisher = st.publisher ∧
      (stageDefaults stem st).publisher = st.publisher) ∧
    (truthy st.title = false → (stageDefaults stem st).title = some stem) := by
  obtain ⟨hr1, hr2, hr3⟩ := stageRegistry_keeps_field localOnly textFirst registry st
  obtain ⟨he1, he2, he3⟩ := stageEmbedded_keeps_field meta st
  obtain ⟨hd1, hd2, hd3, _⟩ := stageDefaults_resolves stem st
  refine ⟨fun h => ⟨hr1 h, he1 h, ?_⟩, fun h => ⟨hr2 h, he2 h, ?_⟩,
    fun h => ⟨hr3 h, he3, ?_⟩, fun h => ?_⟩ <;> simp [hd1, hd2, hd3, *]

/-- Closed instance of `process_pdf_first_writer_wins` with every
truthiness hypothesis discharged on a concrete filled state. -/
theorem process_pdf_first_writer_wins_witness :
    (stageEmbedded ⟨some "Other", some "B"⟩
        (⟨some "T", some "A", some "P", []⟩ : PState)).title = some "T" ∧
    (stageDefaults "doc" (⟨none, some "A", some "P", []⟩ : PState)).title = some "doc" := by
  refine ⟨((process_pdf_first_writer_wins true "" (.error "e") ⟨some "Other", some "B"⟩ "doc"
    ⟨some "T", some "A", some "P", []⟩).1 (by decide)).2.1, ?_⟩
  exact (process_pdf_first_writer_wins true "" (.error "e") ⟨some "Other", some "B"⟩ "doc"
    ⟨none, some "A", some "P", []⟩).2.2.2 (by decide)

/-! ## Claim C2: all fields non-empty after the pipeline completes -/

/-- Claim C2: When the pipeline completes on a document (whose filename stem is
non-empty, as it is for every discovered `*.pdf` file), all three fields
are non-empty; any field still unset after the registry and embedded
stages is filled by its default — the filename stem for the title,
`"Unknown Author"` and `"Unknown Publisher"` for the others — with the
corresponding provenance entry logged. -/
theorem process_pdf_fields_nonempty (textFirst : String) (localOnly : Bool)
    (registry : Except String CrossrefMsg) (meta : EmbeddedMeta) (stem : String)
    (hstem : stem ≠ "") :
    truthy (process_pdf textFirst localOnly registry meta stem).title = true ∧
    truthy (process_pdf textFirst localOnly registry meta stem).firstAuthor = true ∧
    truthy (process_pdf textFirst localOnly registry meta stem).publisher = true ∧
    (truthy (stageEmbedded meta (stageRegistry localOnly textFirst registry initState)).title
        = false →
      (process_pdf textFirst localOnly registry meta stem).title = some stem ∧
      "fallback: title from filename" ∈ (process_pdf textFirst localOnly registry meta stem).log) ∧
    (truthy (stageEmbedded meta
        (stageRegistry localOnly textFirst registry initState)).firstAuthor = false →
      (process_pdf textFirst localOnly registry meta stem).firstAuthor = some "Unknown Author" ∧
      "fallback: unknown author" ∈ (process_pdf textFirst localOnly registry meta stem).log) ∧
    (truthy (stageEmbedded meta
        (stageRegistry localOnly textFirst registry initState)).publisher = false →
      (process_pdf textFirst localOnly registry meta stem).publisher = some "Unknown Publisher" ∧
      "fallback: unknown publisher" ∈ (process_pdf textFirst localOnly registry meta stem).log) := by
  unfold process_pdf
  set s2 := stageEmbedded meta (stageRegistry localOnly textFirst registry initState) with hs2
  obtain ⟨hd1, hd2, hd3, hl1, hl2, hl3⟩ := stageDefaults_resolves stem s2
  refine ⟨?_, ?_, ?_, fun h => ⟨?_, hl1 h⟩, fun h => ⟨?_, hl2 h⟩, fun h => ⟨?_, hl3 h⟩⟩ <;>
    simp only [hd1, hd2, hd3] <;>
    cases h2 : truthy s2.title <;> cases h3 : truthy s2.firstAuthor <;>
      cases h4 : truthy s2.publisher <;> simp_all [truthy]

/-- Closed instance of `process_pdf_fields_nonempty` at a concrete
document with empty metadata and a failing lookup. -/
theorem process_pdf_fields_nonempty_witness :
    truthy (process_pdf "no id" false (.error "net") ⟨none, none⟩ "paper").title = true ∧
    (process_pdf "no id" false (.error "net") ⟨none, none⟩ "paper").title = some "paper" := by
  obtain ⟨h1, _, _, h4, _⟩ :=
    process_pdf_fields_nonempty "no id" false (.error "net") ⟨none, none⟩ "paper" (by decide)
  exact ⟨h1, (h4 (by decide)).1⟩

/-! ## Claim C3: lookup failures are non-fatal -/

theorem stageRegistry_error_state (t doi e : String) (st : PState)
    (hf : find_doi t = some doi) :
    stageRegistry false t (.error e) st =
      { st with log := st.log ++ ["found DOI " ++ doi, "Crossref failed: " ++ e] } := by
  unfold stageRegistry
  simp [hf]

theorem stageRegistry_found_log (t doi : String) (r : Except String CrossrefMsg) (st : PState)
    (hf : find_doi t = some doi) :
    ("found DOI " ++ doi) ∈ (stageRegistry false t r st).log := by
  unfold stageRegistry
  simp only [Bool.false_eq_true, if_false, hf]
  cases r with
  | error e => simp
  | ok msg =>
    cases ht : msg.title <;> cases ha : msg.author <;> cases hp : msg.publisher <;>
      (repeat' split) <;> simp_all <;> (repeat' split) <;> simp_all

/-- Claim C3: A document whose text yields an identifier but whose registry
lookup fails resolves anyway: the failure entry is logged, the final
fields are exactly those produced by the embedded-metadata and default
fallbacks, and `process_pdf` is a total function of the failure (the
exception never escapes the stage). -/
theorem process_pdf_lookup_failure_nonfatal (textFirst doi e : String)
    (meta : EmbeddedMeta) (stem : String) (hf : find_doi textFirst = some doi) :
    ("Crossref failed: " ++ e) ∈ (process_pdf textFirst false (.error e) meta stem).log ∧
    ("found DOI " ++ doi) ∈ (process_pdf textFirst false (.error e) meta stem).log ∧
    (process_pdf textFirst false (.error e) meta stem).title =
      (stageDefaults stem (stageEmbedded meta initState)).title ∧
    (process_pdf textFirst false (.error e) meta stem).firstAuthor =
      (stageDefaults stem (stageEmbedded meta initState)).firstAuthor ∧
    (process_pdf textFirst false (.error e) meta stem).publisher =
      (stageDefaults stem (stageEmbedded meta initState)).publisher := by
  have hreg : stageRegistry false textFirst (.error e) initState =
      ⟨none, none, none, ["found DOI " ++ doi, "Crossref failed: " ++ e]⟩ := by
    rw [stageRegistry_error_state textFirst doi e initState hf]
    rfl
  unfold process_pdf
  rw [hreg]
  rcases hE : stageEmbedded meta initState with ⟨Et, Ea, Ep, El⟩
  have h1 : stageEmbedded meta
      ⟨none, none, none, ["found DOI " ++ doi, "Crossref failed: " ++ e]⟩ =
      ⟨Et, Ea, Ep, ["found DOI " ++ doi, "Crossref failed: " ++ e] ++ El⟩ := by
    have h2 := stageEmbedded_log_split meta none none none
      ["found DOI " ++ doi, "Crossref failed: " ++ e]
    rw [show (⟨none, none, none, []⟩ : PState) = initState from rfl, hE] at h2
    simpa using h2
  rw [h1, stageDefaults_log_split stem Et Ea Ep
    (["found DOI " ++ doi, "Crossref failed: " ++ e] ++ El),
    stageDefaults_log_split stem Et Ea Ep El]
  simp

/-- Closed instance of `process_pdf_lookup_failure_nonfatal` at a
concrete document and a concrete simulated network error. -/
theorem process_pdf_lookup_failure_nonfatal_witness :
    ("Crossref failed: " ++ "timeout") ∈
      (process_pdf "see 10.1000/xyz123." false (.error "timeout") ⟨some "Foo", none⟩ "d").log := by
  exact (process_pdf_lookup_failure_nonfatal "see 10.1000/xyz123." "10.1000/xyz123" "timeout"
    ⟨some "Foo", none⟩ "d" (by decide)).1

/-! ## Claim C4 (corrected): under local-only the extractor is skipped too -/

/-- Counterexample to C4 as stated: the document text contains an
identifier, yet under local-only resolution no extraction provenance is
recorded — the source guards the whole `find_doi` call by
`if not local_only`, so `EXTRACT` does not execute. -/
theorem extract_skipped_local_only_cex :
    find_doi "see 10.1000/xyz123." = some "10.1000/xyz123" ∧
    "found DOI 10.1000/xyz123" ∉
      (process_pdf "see 10.1000/xyz123." true (.error "net") ⟨none, none⟩ "doc").log := by
  decide

/-- Claim C4 as amended: The extractor runs only when local-only resolution is
not requested: under local-only the whole registry block (extraction
included) is skipped, the run coinciding with the pure
embedded-then-default pipeline; when it does run, a found identifier is
recorded in provenance, and with no identifier the registry is never
consulted (the run again coincides with the pure fallback pipeline for
every lookup outcome). -/
theorem extract_runs_only_when_online (textFirst : String)
    (registry : Except String CrossrefMsg) (meta : EmbeddedMeta) (stem : String) :
    (process_pdf textFirst true registry meta stem =
      stageDefaults stem (stageEmbedded meta initState)) ∧
    (find_doi textFirst = none →
      process_pdf textFirst false registry meta stem =
        stageDefaults stem (stageEmbedded meta initState)) ∧
    (∀ doi, find_doi textFirst = some doi →
      ("found DOI " ++ doi) ∈ (process_pdf textFirst false registry meta stem).log) := by
  refine ⟨?_, fun hf => ?_, fun doi hf => ?_⟩
  · have : stageRegistry true textFirst registry initState = initState := by
      unfold stageRegistry; simp
    unfold process_pdf
    rw [this]
  · have : stageRegistry false textFirst registry initState = initState := by
      unfold stageRegistry; simp [hf]
    unfold process_pdf
    rw [this]
  · exact stageDefaults_log_mono _ _ _ (stageEmbedded_log_mono _ _ _
      (stageRegistry_found_log textFirst doi registry initState hf))

/-- Closed instance of `extract_runs_only_when_online`, discharging both
identifier hypotheses on concrete documents. -/
theorem extract_runs_only_when_online_witness :
    process_pdf "no identifier here" false (.error "x") ⟨none, none⟩ "d" =
      stageDefaults "d" (stageEmbedded ⟨none, none⟩ initState) ∧
    "found DOI " ++ "10.1000/xyz123" ∈
      (process_pdf "see 10.1000/xyz123." false (.error "x") ⟨none, none⟩ "d").log := by
  exact ⟨(extract_runs_only_when_online "no identifier here" (.error "x")
      ⟨none, none⟩ "d").2.1 (by decide),
    (extract_runs_only_when_online "see 10.1000/xyz123." (.error "x")
      ⟨none, none⟩ "d").2.2 "10.1000/xyz123" (by decide)⟩

/-! ## Claim C10: whitespace-only embedded metadata yields double provenance -/

/-- Claim C10: If the embedded title (resp. author) is non-empty but all
whitespace and the field was not set earlier, the embedded stage stores
the trimmed empty string and logs its provenance, yet the default
fallback still fires for that field, so the final log carries both the
embedded entry and the fallback entry. -/
theorem embedded_whitespace_double_provenance (meta : EmbeddedMeta) (st : PState)
    (stem : String) (s : String) (hs : s ≠ "") (htrim : pyStrip s = "") :
    (meta.title = some s → truthy st.title = false →
      (stageEmbedded meta st).title = some "" ∧
      "title from embedded metadata" ∈ (stageEmbedded meta st).log ∧
      (stageDefaults stem (stageEmbedded meta st)).title = some stem ∧
      "title from embedded metadata" ∈ (stageDefaults stem (stageEmbedded meta st)).log ∧
      "fallback: title from filename" ∈ (stageDefaults stem (stageEmbedded meta st)).log) ∧
    (meta.author = some s → truthy st.firstAuthor = false →
      (stageEmbedded meta st).firstAuthor = some "" ∧
      "author from embedded metadata" ∈ (stageEmbedded meta st).log ∧
      (stageDefaults stem (stageEmbedded meta st)).firstAuthor = some "Unknown Author" ∧
      "author from embedded metadata" ∈ (stageDefaults stem (stageEmbedded meta st)).log ∧
      "fallback: unknown author" ∈ (stageDefaults stem (stageEmbedded meta st)).log) := by
  constructor
  · intro ht hu
    have hemb : (stageEmbedded meta st).title = some "" ∧
        "title from embedded metadata" ∈ (stageEmbedded meta st).log := by
      unfold stageEmbedded
      rw [ht]
      cases meta.author <;> simp_all <;> (repeat' split) <;> simp_all
    obtain ⟨h1, h2⟩ := hemb
    obtain ⟨hd1, _, _, hl1, _⟩ := stageDefaults_resolves stem (stageEmbedded meta st)
    have hfalse : truthy (stageEmbedded meta st).title = false := by rw [h1]; rfl
    refine ⟨h1, h2, ?_, stageDefaults_log_mono _ _ _ h2, hl1 hfalse⟩
    rw [hd1, hfalse]
    simp
  · intro ha hu
    have hemb : (stageEmbedded meta st).firstAuthor = some "" ∧
        "author from embedded metadata" ∈ (stageEmbedded meta st).log := by
      unfold stageEmbedded
      rw [ha]
      cases meta.title <;> simp_all <;> (repeat' split) <;> simp_all
    obtain ⟨h1, h2⟩ := hemb
    obtain ⟨_, hd2, _, _, hl2, _⟩ := stageDefaults_resolves stem (stageEmbedded meta st)
    have hfalse : truthy (stageEmbedded meta st).firstAuthor = false := by rw [h1]; rfl
    refine ⟨h1, h2, ?_, stageDefaults_log_mono _ _ _ h2, hl2 hfalse⟩
    rw [hd2, hfalse]
    simp

/-! ## Claim C6 (corrected): composition format and truncation -/

theorem strEndsWith_append (x pat : String) : strEndsWith (x ++ pat) pat = true := by
  have h : (x ++ pat).data.reverse = pat.data.reverse ++ x.data.reverse := by
    rw [String.data_append, List.reverse_append]
  rw [strEndsWith, h]
  have h2 : pat.data.length = (pat.data.reverse).length := (List.length_reverse _).symm
  rw [h2, List.take_left]
  simp

/-- Counterexample to C6 as stated: composing with the 200-character
title from the specification's own example produces a 180-character name
that does not end in `.pdf` — the truncation cuts the extension off. -/
theorem compose_name_extension_cut_cex :
    longTitle.length = 200 ∧
    (compose_name (some "ACME") (some longTitle) (some "Jane Doe")).length = 180 ∧
    strEndsWith (compose_name (some "ACME") (some longTitle) (some "Jane Doe")) ".pdf" =
      false := by
  decide

theorem rstripList_length_le (l : List Char) : (rstripList l).length ≤ l.length := by
  rw [rstripList]
  calc (List.dropWhile pyIsSpace l.reverse).reverse.length
      = (List.dropWhile pyIsSpace l.reverse).length := List.length_reverse _
    _ ≤ l.reverse.length := List.Sublist.length_le (List.dropWhile_sublist pyIsSpace)
    _ = l.length := List.length_reverse _

theorem truncate_filename_length_le (name : String) (maxLen : Nat) :
    (truncate_filename name maxLen).length ≤ maxLen := by
  rw [truncate_filename]
  split
  · assumption
  · show (rstripList (name.data.take maxLen)).length ≤ maxLen
    exact le_trans (rstripList_length_le _) (List.length_take_le ..)

/-- Claim C6 as amended: `compose_name` sanitizes each field (with the defaults
`"Unknown Publisher"`, `"Untitled"`, `"Unknown Author"` for null input),
formats `"{publisher} - {title} - {initials}.pdf"` and truncates to at
most 180 characters; the result ends in `.pdf` whenever the composed
string fits the budget, but a long title (as in the 200-character
example) loses the extension to the truncation. -/
theorem compose_name_length_spec (publisher title first_author : Option String) :
    compose_name publisher title first_author =
      truncate_filename
        (sanitizeS (pyOr publisher "Unknown Publisher") ++ " - " ++
         sanitizeS (pyOr title "Untitled") ++ " - " ++
         to_initials (pyOr first_author "Unknown Author") ++ ".pdf") 180 ∧
    (compose_name publisher title first_author).length ≤ 180 ∧
    ((sanitizeS (pyOr publisher "Unknown Publisher") ++ " - " ++
      sanitizeS (pyOr title "Untitled") ++ " - " ++
      to_initials (pyOr first_author "Unknown Author") ++ ".pdf").length ≤ 180 →
      strEndsWith (compose_name publisher title first_author) ".pdf" = true) := by
  refine ⟨rfl, ?_, fun h => ?_⟩
  · exact truncate_filename_length_le _ 180
  · rw [compose_name, truncate_filename, if_pos h]
    exact strEndsWith_append _ ".pdf"

/-- Closed instance of `compose_name_length_spec`: a short composition
keeps its extension. -/
theorem compose_name_length_spec_witness :
    strEndsWith (compose_name none none none) ".pdf" = true := by
  exact (compose_name_length_spec none none none).2.2 (by decide)

/-! ## Claim C7: dry-run renaming is pure -/

/-- Claim C7: A dry run of `safe_rename` computes exactly the final name a
real run would produce in the same directory state, and leaves the
directory contents unchanged. -/
theorem safe_rename_dry_run_pure (fs : List String) (curName newName : String) :
    (safe_rename fs curName newName true).1 = (safe_rename fs curName newName false).1 ∧
    (safe_rename fs curName newName true).2 = fs := by
  unfold safe_rename
  (repeat' split) <;> simp_all

/-! ## Claim C5: collision-safe disambiguation

The candidate names `"{stem} (i){suf}"` are pairwise distinct (decimal
rendering is injective, proved by a parse round-trip), so within
`fs.length + 1` attempts the loop always finds a free name; the fuelled
embedding therefore computes exactly what the unbounded source loop
does: the smallest unused counter from 1. -/

theorem natReprAux_eq (fuel : Nat) : ∀ n acc, n < fuel →
    natReprAux fuel n acc = natReprAux (n+1) n [] ++ acc := by
  induction fuel using Nat.strong_induction_on with
  | _ fuel ih =>
    intro n acc hn
    cases fuel with
    | zero => omega
    | succ f =>
      rw [natReprAux]
      by_cases h10 : n < 10
      · rw [if_pos h10]
        have h1 : natReprAux (n+1) n [] = [decDigitChar n] := by
          rw [natReprAux, if_pos h10]
        rw [h1]
        rfl
      · rw [if_neg h10]
        have hR : natReprAux (n+1) n [] =
            natReprAux (n/10+1) (n/10) [] ++ [decDigitChar (n % 10)] := by
          conv_lhs => rw [natReprAux]
          rw [if_neg h10]
          exact ih n (by omega) (n/10) _ (by omega)
        rw [ih f (by omega) (n/10) _ (by omega), hR, List.append_assoc]
        rfl

theorem digitsVal_append_singleton (l : List Char) (c : Char) :
    digitsVal (l ++ [c]) = digitsVal l * 10 + charVal c := by
  rw [digitsVal, digitsVal, List.foldl_append]
  rfl

theorem charVal_decDigitChar (d : Nat) (h : d < 10) : charVal (decDigitChar d) = d := by
  interval_cases d <;> decide

theorem digitsVal_natRepr (n : Nat) : digitsVal (natRepr n).data = n := by
  induction n using Nat.strong_induction_on with
  | _ n ih =>
    by_cases h10 : n < 10
    · have h1 : natRepr n = ⟨[decDigitChar n]⟩ := by
        rw [natRepr]
        conv_lhs => rw [natReprAux]
        rw [if_pos h10]
      rw [h1]
      show digitsVal [decDigitChar n] = n
      rw [digitsVal]
      show 0 * 10 + charVal (decDigitChar n) = n
      rw [charVal_decDigitChar n h10]
      omega
    · have hsplit : (natRepr n).data =
          (natRepr (n / 10)).data ++ [decDigitChar (n % 10)] := by
        show natReprAux (n+1) n [] = natReprAux (n/10+1) (n/10) [] ++ [decDigitChar (n % 10)]
        conv_lhs => rw [natReprAux]
        rw [if_neg h10]
        exact natReprAux_eq n (n/10) [decDigitChar (n % 10)] (by omega)
      rw [hsplit, digitsVal_append_singleton, ih (n/10) (by omega),
        charVal_decDigitChar _ (by omega)]
      omega

theorem candName_inj (stem suf : String) (i j : Nat)
    (h : candName stem suf i = candName stem suf j) : i = j := by
  have hd : (candName stem suf i).data = (candName stem suf j).data := by rw [h]
  rw [candName, candName] at hd
  repeat rw [String.data_append] at hd
  have h1 := List.append_cancel_right hd
  have h2 := List.append_cancel_right h1
  have h3 := List.append_cancel_left h2
  have h4 : digitsVal (natRepr i).data = digitsVal (natRepr j).data := by rw [h3]
  rwa [digitsVal_natRepr, digitsVal_natRepr] at h4

theorem exists_free_cand (fs : List String) (stem suf : String) :
    ∃ k, k ≤ fs.length ∧ candName stem suf (1 + k) ∉ fs := by
  by_contra hc
  push_neg at hc
  have hnd : ((List.range (fs.length + 1)).map (fun k => candName stem suf (1 + k))).Nodup := by
    refine List.Nodup.map ?_ (List.nodup_range _)
    intro a b hab
    have := candName_inj stem suf (1 + a) (1 + b) hab
    omega
  have hsub : ((List.range (fs.length + 1)).map
      (fun k => candName stem suf (1 + k))).toFinset ⊆ fs.toFinset := by
    intro x hx
    rw [List.mem_toFinset] at hx ⊢
    simp only [List.mem_map, List.mem_range] at hx
    obtain ⟨k, hk, rfl⟩ := hx
    exact hc k (by omega)
  have hcard := List.toFinset_card_of_nodup hnd
  have h1 := Finset.card_le_card hsub
  have h2 := fs.toFinset_card_le
  simp only [List.length_map, List.length_range] at hcard
  omega

theorem firstFreeAux_spec (fs : List String) (stem suf : String) :
    ∀ (fuel start : Nat), (∃ k, k < fuel ∧ candName stem suf (start + k) ∉ fs) →
      candName stem suf (firstFreeAux fs stem suf fuel start) ∉ fs ∧
      start ≤ firstFreeAux fs stem suf fuel start ∧
      ∀ j, start ≤ j → j < firstFreeAux fs stem suf fuel start →
        candName stem suf j ∈ fs := by
  intro fuel
  induction fuel with
  | zero =>
    intro start h
    obtain ⟨k, hk, -⟩ := h
    omega
  | succ f ih =>
    intro start h
    rw [firstFreeAux]
    by_cases hmem : candName stem suf start ∈ fs
    · rw [if_pos hmem]
      have hex : ∃ k, k < f ∧ candName stem suf (start + 1 + k) ∉ fs := by
        obtain ⟨k, hk, hfree⟩ := h
        cases k with
        | zero => exact absurd hmem (by simpa using hfree)
        | succ k2 =>
          exact ⟨k2, by omega, by rw [show start + 1 + k2 = start + (k2+1) by omega]; exact hfree⟩
      obtain ⟨hf1, hf2, hf3⟩ := ih (start + 1) hex
      refine ⟨hf1, by omega, fun j hj1 hj2 => ?_⟩
      rcases Nat.eq_or_lt_of_le hj1 with rfl | hlt
      · exact hmem
      · exact hf3 j hlt hj2
    · rw [if_neg hmem]
      exact ⟨hmem, le_refl _, fun j hj1 hj2 => by omega⟩

/-- Claim C5: `safe_rename` is a no-op (unchanged path and directory) when
the candidate equals the current name; renames directly when the target
is free; and otherwise returns `"{stem} (i){suffix}"` for the smallest
`i ≥ 1` whose candidate does not exist — in particular requesting
`"Foo.pdf"` where `"Foo.pdf"` exists yields `"Foo (1).pdf"`, and with
`"Foo (1).pdf"` also taken yields `"Foo (2).pdf"`. -/
theorem safe_rename_spec (fs : List String) (curName newName : String) (dryRun : Bool) :
    (newName = curName → safe_rename fs curName newName dryRun = (curName, fs)) ∧
    (newName ≠ curName → newName ∉ fs →
      (safe_rename fs curName newName dryRun).1 = newName) ∧
    (newName ≠ curName → newName ∈ fs →
      ∃ i, 1 ≤ i ∧
        (safe_rename fs curName newName dryRun).1 =
          candName (pathSplit newName).1 (pathSplit newName).2 i ∧
        candName (pathSplit newName).1 (pathSplit newName).2 i ∉ fs ∧
        ∀ j, 1 ≤ j → j < i → candName (pathSplit newName).1 (pathSplit newName).2 j ∈ fs) ∧
    (safe_rename ["Bar.pdf", "Foo.pdf"] "Bar.pdf" "Foo.pdf" dryRun).1 = "Foo (1).pdf" ∧
    (safe_rename ["Bar.pdf", "Foo.pdf", "Foo (1).pdf"] "Bar.pdf" "Foo.pdf" dryRun).1 =
      "Foo (2).pdf" := by
  refine ⟨fun h => ?_, fun h1 h2 => ?_, fun h1 h2 => ?_, ?_, ?_⟩
  · rw [safe_rename, if_pos h]
  · rw [safe_rename, if_neg h1]
    simp only [if_neg h2]
    cases dryRun <;> rfl
  · have hex : ∃ k, k < fs.length + 1 ∧
        candName (pathSplit newName).1 (pathSplit newName).2 (1 + k) ∉ fs := by
      obtain ⟨k, hk, hfree⟩ :=
        exists_free_cand fs (pathSplit newName).1 (pathSplit newName).2
      exact ⟨k, by omega, hfree⟩
    obtain ⟨hf1, hf2, hf3⟩ :=
      firstFreeAux_spec fs (pathSplit newName).1 (pathSplit newName).2 (fs.length + 1) 1 hex
    refine ⟨firstFreeAux fs (pathSplit newName).1 (pathSplit newName).2 (fs.length + 1) 1,
      hf2, ?_, hf1, hf3⟩
    rw [safe_rename, if_neg h1]
    simp only [if_pos h2]
    cases dryRun <;> rfl
  · cases dryRun <;> decide
  · cases dryRun <;> decide

/-- Closed instance of `safe_rename_spec`: the no-op case on a concrete
directory. -/
theorem safe_rename_spec_witness :
    safe_rename ["A.pdf"] "A.pdf" "A.pdf" false = ("A.pdf", ["A.pdf"]) :=
  (safe_rename_spec ["A.pdf"] "A.pdf" "A.pdf" false).1 rfl

/-! ## Claim C9: sanitizer guarantees -/

theorem matchToks_repPlus (f : Char → Bool) (p : Option Char) (xs : List Char) :
    matchToks [.rep f 1 none] p xs =
      if (xs.takeWhile f).length = 0 then none else some (xs.takeWhile f).length := by
  rw [matchToks]
  cases hrun : (xs.takeWhile f).length with
  | zero => simp [tryDesc, hrun]
  | succ m => simp [tryDesc, hrun, matchToks]

theorem matchToks_wsToks (p : Option Char) (xs : List Char) :
    matchToks wsToks p xs =
      if (xs.takeWhile pyIsSpace).length = 0 then none
      else some (xs.takeWhile pyIsSpace).length :=
  matchToks_repPlus pyIsSpace p xs

theorem drop_takeWhile_length (p : Char → Bool) (l : List Char) :
    l.drop (l.takeWhile p).length = l.dropWhile p := by
  induction l with
  | nil => rfl
  | cons x xs ih =>
    by_cases hx : p x = true
    · rw [List.takeWhile_cons_of_pos hx, List.dropWhile_cons_of_pos hx]
      simpa using ih
    · rw [List.takeWhile_cons_of_neg hx, List.dropWhile_cons_of_neg hx]
      rfl

theorem head_dropWhile_false (p : Char → Bool) (l : List Char) (c : Char)
    (h : (l.dropWhile p).head? = some c) : p c = false := by
  induction l with
  | nil => simp at h
  | cons x xs ih =>
    by_cases hx : p x = true
    · rw [List.dropWhile_cons_of_pos hx] at h
      exact ih h
    · rw [List.dropWhile_cons_of_neg hx] at h
      simp only [List.head?_cons, Option.some.injEq] at h
      rw [← h]
      simpa using hx

theorem subAllAux_mem (toks : List Tok) (repl : List Char) :
    ∀ (fuel : Nat) (prev : Option Char) (cs : List Char) (c : Char),
      c ∈ subAllAux toks repl fuel prev cs → c ∈ cs ∨ c ∈ repl := by
  intro fuel
  induction fuel with
  | zero =>
    intro prev cs c h
    simp [subAllAux] at h
  | succ f ih =>
    intro prev cs c h
    cases cs with
    | nil => simp [subAllAux] at h
    | cons x xs =>
      rw [subAllAux] at h
      rcases hm : matchToks toks prev (x :: xs) with - | n
      · rw [hm] at h
        rcases List.mem_cons.mp h with rfl | h2
        · exact Or.inl (List.mem_cons_self c _)
        · rcases ih (some x) xs c h2 with h3 | h3
          · exact Or.inl (List.mem_cons_of_mem x h3)
          · exact Or.inr h3
      · rw [hm] at h
        cases n with
        | zero =>
          rcases List.mem_cons.mp h with rfl | h2
          · exact Or.inl (List.mem_cons_self c _)
          · rcases ih (some x) xs c h2 with h3 | h3
            · exact Or.inl (List.mem_cons_of_mem x h3)
            · exact Or.inr h3
        | succ n2 =>
          rcases List.mem_append.mp h with h2 | h2
          · exact Or.inr h2
          · rcases ih ((x :: xs).get? n2) ((x :: xs).drop (n2+1)) c h2 with h3 | h3
            · exact Or.inl (List.mem_of_mem_drop h3)
            · exact Or.inr h3

theorem subAll_ws_head_nonspace :
    ∀ (fuel : Nat) (cs : List Char) (prev : Option Char),
      (∀ c, cs.head? = some c → pyIsSpace c = false) →
      ∀ c, (subAllAux wsToks [' '] fuel prev cs).head? = some c → pyIsSpace c = false := by
  intro fuel cs prev hcs c hout
  cases fuel with
  | zero => simp [subAllAux] at hout
  | succ f =>
    cases cs with
    | nil => simp [subAllAux] at hout
    | cons x xs =>
      have hx : pyIsSpace x = false := hcs x rfl
      have hnone : matchToks wsToks prev (x :: xs) = none := by
        rw [matchToks_wsToks, List.takeWhile_cons_of_neg (by simp [hx])]
        simp
      rw [subAllAux, hnone] at hout
      simp only [List.head?_cons, Option.some.injEq] at hout
      rw [← hout]
      exact hx

theorem subAll_ws_chain :
    ∀ (fuel : Nat) (cs : List Char) (prev : Option Char), cs.length ≤ fuel →
      List.Chain' (fun a b => (pyIsSpace a && pyIsSpace b) = false)
        (subAllAux wsToks [' '] fuel prev cs) := by
  intro fuel
  induction fuel with
  | zero =>
    intro cs prev h
    simp [subAllAux]
  | succ f ih =>
    intro cs prev hlen
    cases cs with
    | nil => simp [subAllAux]
    | cons x xs =>
      by_cases hx : pyIsSpace x = true
      · have hsome : matchToks wsToks prev (x :: xs) =
            some ((xs.takeWhile pyIsSpace).length + 1) := by
          rw [matchToks_wsToks, List.takeWhile_cons_of_pos hx]
          simp
        rw [subAllAux, hsome]
        show List.Chain' _
          (' ' :: subAllAux wsToks [' '] f ((x :: xs).get? (xs.takeWhile pyIsSpace).length)
            ((x :: xs).drop ((xs.takeWhile pyIsSpace).length + 1)))
        have hdrop : (x :: xs).drop ((xs.takeWhile pyIsSpace).length + 1) =
            xs.dropWhile pyIsSpace := by
          show xs.drop (xs.takeWhile pyIsSpace).length = xs.dropWhile pyIsSpace
          rw [drop_takeWhile_length]
        rw [hdrop, List.chain'_cons']
        constructor
        · intro b hb
          have hno : ∀ c, (xs.dropWhile pyIsSpace).head? = some c → pyIsSpace c = false :=
            fun c hc => head_dropWhile_false pyIsSpace xs c hc
          have hb2 := subAll_ws_head_nonspace f (xs.dropWhile pyIsSpace)
            ((x :: xs).get? (xs.takeWhile pyIsSpace).length) hno b hb
          simp [hb2]
        · refine ih (xs.dropWhile pyIsSpace)
            ((x :: xs).get? (xs.takeWhile pyIsSpace).length) ?_
          calc (xs.dropWhile pyIsSpace).length ≤ xs.length :=
                List.Sublist.length_le (List.dropWhile_sublist pyIsSpace)
            _ ≤ f := by simpa using hlen
      · have hnone : matchToks wsToks prev (x :: xs) = none := by
          rw [matchToks_wsToks, List.takeWhile_cons_of_neg (by simp [hx])]
          simp
        rw [subAllAux, hnone]
        show List.Chain' _ (x :: subAllAux wsToks [' '] f (some x) xs)
        rw [List.chain'_cons']
        constructor
        · intro b hb
          simp only [Bool.and_eq_false_iff]
          left
          simpa using hx
        · exact ih xs (some x) (by simpa using hlen)

theorem rstripList_decomp (m : List Char) :
    ∃ t, rstripList m ++ t = m ∧ ∀ c ∈ t, pyIsSpace c = true := by
  refine ⟨(m.reverse.takeWhile pyIsSpace).reverse, ?_, ?_⟩
  · rw [rstripList]
    have h1 : m.reverse.takeWhile pyIsSpace ++ m.reverse.dropWhile pyIsSpace = m.reverse :=
      m.reverse.takeWhile_append_dropWhile pyIsSpace
    have h2 := congrArg List.reverse h1
    rw [List.reverse_append, List.reverse_reverse] at h2
    exact h2
  · intro c hc
    rw [List.mem_reverse] at hc
    exact List.mem_takeWhile_imp hc

theorem stripList_eq_rstrip_drop (cs : List Char) :
    stripList cs = rstripList (cs.dropWhile pyIsSpace) := rfl

theorem stripList_sub (cs : List Char) (c : Char) (h : c ∈ stripList cs) : c ∈ cs := by
  rw [stripList_eq_rstrip_drop] at h
  obtain ⟨t, ht, -⟩ := rstripList_decomp (cs.dropWhile pyIsSpace)
  have h2 : c ∈ cs.dropWhile pyIsSpace := by
    rw [← ht]
    exact List.mem_append_left t h
  exact List.Sublist.mem h2 (List.dropWhile_sublist pyIsSpace)

theorem stripList_chain (cs : List Char)
    (h : List.Chain' (fun a b => (pyIsSpace a && pyIsSpace b) = false) cs) :
    List.Chain' (fun a b => (pyIsSpace a && pyIsSpace b) = false) (stripList cs) := by
  rw [stripList_eq_rstrip_drop]
  have h1 : List.Chain' (fun a b => (pyIsSpace a && pyIsSpace b) = false)
      (cs.dropWhile pyIsSpace) :=
    List.Chain'.suffix h (List.dropWhile_suffix pyIsSpace)
  obtain ⟨t, ht, -⟩ := rstripList_decomp (cs.dropWhile pyIsSpace)
  rw [← ht] at h1
  exact (List.chain'_append.mp h1).1

theorem stripList_head (cs : List Char) (c : Char)
    (h : (stripList cs).head? = some c) : pyIsSpace c = false := by
  rw [stripList_eq_rstrip_drop] at h
  obtain ⟨t, ht, -⟩ := rstripList_decomp (cs.dropWhile pyIsSpace)
  cases hr : rstripList (cs.dropWhile pyIsSpace) with
  | nil => rw [hr] at h; simp at h
  | cons y ys =>
    rw [hr] at h
    simp only [List.head?_cons, Option.some.injEq] at h
    rw [hr] at ht
    have hhead : (cs.dropWhile pyIsSpace).head? = some y := by
      rw [← ht]
      rfl
    rw [← h]
    exact head_dropWhile_false pyIsSpace cs y hhead

theorem stripList_getLast (cs : List Char) (c : Char)
    (h : (stripList cs).getLast? = some c) : pyIsSpace c = false := by
  rw [stripList_eq_rstrip_drop, rstripList, List.getLast?_reverse] at h
  exact head_dropWhile_false pyIsSpace (cs.dropWhile pyIsSpace).reverse c h

theorem sanitizeS_spec (x : String) :
    (∀ c ∈ (sanitizeS x).data, c ∉ INVALID_CHARS) ∧
    List.Chain' (fun a b => (pyIsSpace a && pyIsSpace b) = false) (sanitizeS x).data ∧
    (∀ c, (sanitizeS x).data.head? = some c → pyIsSpace c = false) ∧
    (∀ c, (sanitizeS x).data.getLast? = some c → pyIsSpace c = false) := by
  have hdata : (sanitizeS x).data = stripList (subAll wsToks [' '] (replaceInvalid x.data)) :=
    rfl
  refine ⟨?_, ?_, ?_, ?_⟩
  · intro c hc hinv
    rw [hdata] at hc
    have h1 := stripList_sub _ c hc
    rcases subAllAux_mem wsToks [' '] _ none _ c h1 with h2 | h2
    · rw [replaceInvalid] at h2
      rcases List.mem_map.mp h2 with ⟨orig, -, horig⟩
      by_cases ho : orig ∈ INVALID_CHARS
      · rw [if_pos ho] at horig
        rw [← horig] at hinv
        exact absurd hinv (by decide)
      · rw [if_neg ho] at horig
        rw [← horig] at hinv
        exact ho hinv
    · have : c = ' ' := by simpa using h2
      rw [this] at hinv
      exact absurd hinv (by decide)
  · rw [hdata]
    exact stripList_chain _ (subAll_ws_chain _ _ none (le_refl _))
  · intro c hc
    rw [hdata] at hc
    exact stripList_head _ c hc
  · intro c hc
    rw [hdata] at hc
    exact stripList_getLast _ c hc

/-- Claim C9: `sanitize` never fails (it is a total function), maps a null
input to the empty string, and its output contains no invalid filename
character, no two adjacent whitespace characters, and no leading or
trailing whitespace. -/
theorem sanitize_spec (s : Option String) :
    (∀ c ∈ (sanitize s).data, c ∉ INVALID_CHARS) ∧
    List.Chain' (fun a b => (pyIsSpace a && pyIsSpace b) = false) (sanitize s).data ∧
    (∀ c, (sanitize s).data.head? = some c → pyIsSpace c = false) ∧
    (∀ c, (sanitize s).data.getLast? = some c → pyIsSpace c = false) ∧
    sanitize none = "" := by
  cases s with
  | none =>
    obtain ⟨h1, h2, h3, h4⟩ := sanitizeS_spec ""
    exact ⟨h1, h2, h3, h4, rfl⟩
  | some x =>
    obtain ⟨h1, h2, h3, h4⟩ := sanitizeS_spec x
    exact ⟨h1, h2, h3, h4, rfl⟩

/-- Closed instance of `sanitize_spec` on a concrete string, all
hypotheses discharged by evaluation. -/
theorem sanitize_spec_witness :
    'a' ∉ INVALID_CHARS ∧ pyIsSpace 'a' = false := by
  refine ⟨(sanitize_spec (some "a b")).1 'a' (by decide), ?_⟩
  exact (sanitize_spec (some "a b")).2.2.1 'a' (by decide)

/-! ## Claim C8: identifier extraction -/

theorem tryDesc_some (attempt : Nat → Option Nat) (lo : Nat) :
    ∀ (j v : Nat), tryDesc attempt lo j = some v →
      ∃ k, lo ≤ k ∧ k ≤ j ∧ attempt k = some v := by
  intro j
  induction j with
  | zero =>
    intro v h
    rw [tryDesc] at h
    split at h
    · rename_i hlo
      exact ⟨0, by omega, le_refl 0, h⟩
    · exact absurd h (by simp)
  | succ j2 ih =>
    intro v h
    rw [tryDesc] at h
    split at h
    · exact absurd h (by simp)
    · rename_i hklo
      rcases ha : attempt (j2+1) with - | r
      · rw [ha] at h
        obtain ⟨k, h1, h2, h3⟩ := ih v h
        exact ⟨k, h1, by omega, h3⟩
      · rw [ha] at h
        simp only [Option.some.injEq] at h
        exact ⟨j2+1, by omega, le_refl _, by rw [ha, h]⟩

theorem tryDesc_none (attempt : Nat → Option Nat) (lo : Nat) :
    ∀ (j : Nat), tryDesc attempt lo j = none →
      ∀ k, lo ≤ k → k ≤ j → attempt k = none := by
  intro j
  induction j with
  | zero =>
    intro h k hk1 hk2
    have hk0 : k = 0 := by omega
    subst hk0
    rw [tryDesc] at h
    split at h
    · exact h
    · rename_i hlo
      omega
  | succ j2 ih =>
    intro h k hk1 hk2
    rw [tryDesc] at h
    split at h
    · rename_i hlt
      omega
    · rcases ha : attempt (j2+1) with - | r
      · rw [ha] at h
        rcases Nat.lt_or_ge k (j2+1) with hlt | hge
        · exact ih h k hk1 (by omega)
        · have hke : k = j2+1 := by omega
          subst hke
          exact ha
      · rw [ha] at h
        simp at h

theorem matchToks_lit_some (c : Char) (ts : List Tok) (p : Option Char) (xs : List Char)
    (n : Nat) (h : matchToks (.lit c :: ts) p xs = some n) :
    ∃ xs2 m, xs = c :: xs2 ∧ matchToks ts (some c) xs2 = some m ∧ n = m + 1 := by
  cases xs with
  | nil =>
    rw [matchToks] at h
    exact absurd h (by simp)
  | cons x xs2 =>
    rw [matchToks] at h
    by_cases hx : x = c
    · subst hx
      rw [if_pos rfl] at h
      rcases hmm : matchToks ts (some x) xs2 with - | m
      · rw [hmm] at h
        exact absurd h (by simp)
      · rw [hmm] at h
        simp only [Option.map_some', Option.some.injEq] at h
        exact ⟨xs2, m, rfl, hmm, h.symm⟩
    · rw [if_neg hx] at h
      exact absurd h (by simp)

theorem matchToks_lit_cons (c : Char) (ts : List Tok) (p : Option Char) (xs2 : List Char) :
    matchToks (.lit c :: ts) p (c :: xs2) = (matchToks ts (some c) xs2).map (· + 1) := by
  rw [matchToks, if_pos rfl]

theorem matchToks_rep49_eq (ts : List Tok) (p : Option Char) (xs : List Char) :
    matchToks (.rep Char.isDigit 4 (some 9) :: ts) p xs =
      tryDesc (fun k =>
        (matchToks ts (if k = 0 then p else xs.get? (k-1)) (xs.drop k)).map (· + k)) 4
        (min 9 (xs.takeWhile Char.isDigit).length) := by
  rw [matchToks]

theorem take_of_le_takeWhile (f : Char → Bool) :
    ∀ (l : List Char) (k : Nat), k ≤ (l.takeWhile f).length →
      l.take k = (l.takeWhile f).take k := by
  intro l
  induction l with
  | nil => intro k h; rfl
  | cons x xs ih =>
    intro k h
    by_cases hx : f x = true
    · rw [List.takeWhile_cons_of_pos hx] at h ⊢
      cases k with
      | zero => rfl
      | succ k2 =>
        rw [List.take_succ_cons, List.take_succ_cons, ih k2 (by simpa using h)]
    · rw [List.takeWhile_cons_of_neg hx] at h
      have hk0 : k = 0 := by simpa using h
      subst hk0
      rfl

theorem takeWhile_length_ge (f : Char → Bool) (ds t : List Char)
    (hall : ∀ c ∈ ds, f c = true) :
    ds.length ≤ ((ds ++ t).takeWhile f).length := by
  induction ds with
  | nil => simp
  | cons d ds2 ih =>
    rw [List.cons_append, List.takeWhile_cons_of_pos (hall d (List.mem_cons_self d ds2))]
    simpa using ih (fun c hc => hall c (List.mem_cons_of_mem d hc))

theorem matchToks_doi_sound (p : Option Char) (xs : List Char) (n : Nat)
    (h : matchToks doiToks p xs = some n) :
    DoiShape (xs.take n) ∧ n ≤ xs.length := by
  obtain ⟨xs1, m1, he1, h1, hn1⟩ := matchToks_lit_some '1' _ p xs n h
  obtain ⟨xs2, m2, he2, h2, hn2⟩ := matchToks_lit_some '0' _ _ xs1 m1 h1
  obtain ⟨xs3, m3, he3, h3, hn3⟩ := matchToks_lit_some '.' _ _ xs2 m2 h2
  rw [matchToks_rep49_eq] at h3
  obtain ⟨k, hk4, hkmin, hka⟩ := tryDesc_some _ 4 _ m3 h3
  rw [le_min_iff] at hkmin
  obtain ⟨hk9, hkrun⟩ := hkmin
  rcases hmm : matchToks [Tok.lit '/', Tok.rep isDoiBodyChar 1 none]
      (if k = 0 then some '.' else xs3.get? (k-1)) (xs3.drop k) with - | r
  · rw [hmm] at hka
    exact absurd hka (by simp)
  · rw [hmm] at hka
    simp only [Option.map_some', Option.some.injEq] at hka
    obtain ⟨xs4, m4, he4, h4, hn4⟩ := matchToks_lit_some '/' _ _ (xs3.drop k) r hmm
    rw [matchToks_repPlus] at h4
    split at h4
    · exact absurd h4 (by simp)
    · rename_i hrun4
      simp only [Option.some.injEq] at h4
      have hkx3 : k ≤ xs3.length :=
        le_trans hkrun (List.Sublist.length_le (List.takeWhile_sublist Char.isDigit))
      have hx3len : xs3.length = k + 1 + xs4.length := by
        have hlen4 := congrArg List.length he4
        rw [List.length_drop] at hlen4
        simp only [List.length_cons] at hlen4
        omega
      have hrle : m4 ≤ xs4.length := by
        rw [← h4]
        exact List.Sublist.length_le (List.takeWhile_sublist isDoiBodyChar)
      have hn : n = 3 + (k + (1 + m4)) := by omega
      have htk : xs.take n = '1' :: '0' :: '.' :: xs3.take (k + (1 + m4)) := by
        rw [he1, he2, he3, hn]
        rw [show 3 + (k + (1 + m4)) = (k + (1 + m4)) + 3 from by omega]
        rfl
      have htk2 : xs3.take (k + (1 + m4)) = xs3.take k ++ ('/' :: xs4.take m4) := by
        rw [List.take_add, he4]
        rw [show 1 + m4 = m4 + 1 from by omega]
        rfl
      refine ⟨⟨xs3.take k, xs4.take m4, ?_, ?_, ?_, ?_, ?_, ?_⟩, ?_⟩
      · rw [List.length_take]
        omega
      · rw [List.length_take]
        omega
      · intro c hc
        rw [take_of_le_takeWhile Char.isDigit xs3 k hkrun] at hc
        exact List.mem_takeWhile_imp (List.mem_of_mem_take hc)
      · rw [← h4]
        intro hemp
        have := congrArg List.length hemp
        rw [List.length_take] at this
        simp only [List.length_nil] at this
        omega
      · intro c hc
        rw [← h4, take_of_le_takeWhile isDoiBodyChar xs4 _ (by rw [h4])] at hc
        exact List.mem_takeWhile_imp (List.mem_of_mem_take hc)
      · rw [htk, htk2]
      · rw [he1, he2, he3]
        simp only [List.length_cons]
        omega

theorem matchToks_doi_complete (p : Option Char) (m rest : List Char)
    (hshape : DoiShape m) : matchToks doiToks p (m ++ rest) ≠ none := by
  obtain ⟨ds, body, hd4, hd9, hdig, hbne, hbody, hm⟩ := hshape
  subst hm
  intro hnone
  rw [List.cons_append, List.cons_append, List.cons_append] at hnone
  rw [show doiToks = Tok.lit '1' :: Tok.lit '0' :: Tok.lit '.' ::
    [Tok.rep Char.isDigit 4 (some 9), Tok.lit '/', Tok.rep isDoiBodyChar 1 none] from rfl]
    at hnone
  rw [matchToks_lit_cons, Option.map_eq_none'] at hnone
  rw [matchToks_lit_cons, Option.map_eq_none'] at hnone
  rw [matchToks_lit_cons, Option.map_eq_none'] at hnone
  rw [show [Tok.rep Char.isDigit 4 (some 9), Tok.lit '/', Tok.rep isDoiBodyChar 1 none] =
    Tok.rep Char.isDigit 4 (some 9) :: [Tok.lit '/', Tok.rep isDoiBodyChar 1 none] from rfl]
    at hnone
  rw [matchToks_rep49_eq] at hnone
  have hds : ds.length ≤ (((ds ++ '/' :: body) ++ rest).takeWhile Char.isDigit).length := by
    rw [List.append_assoc]
    exact takeWhile_length_ge Char.isDigit ds ('/' :: body ++ rest) hdig
  have hk := tryDesc_none _ 4 _ hnone ds.length hd4 (le_min_iff.mpr ⟨hd9, hds⟩)
  rw [Option.map_eq_none'] at hk
  rw [List.append_assoc, List.drop_left] at hk
  rw [show ('/' :: body ++ rest : List Char) = '/' :: (body ++ rest) from rfl] at hk
  rw [matchToks_lit_cons, Option.map_eq_none'] at hk
  rw [matchToks_repPlus] at hk
  split at hk
  · rename_i hz
    have hge := takeWhile_length_ge isDoiBodyChar body rest hbody
    rw [hz] at hge
    cases body with
    | nil => exact hbne rfl
    | cons b bs => simp at hge
  · simp at hk

theorem lastOpt_cons (prev : Option Char) (c : Char) (pre : List Char) :
    lastOpt prev (c :: pre) = lastOpt (some c) pre := by
  cases pre with
  | nil => rfl
  | cons d ds =>
    show (c :: d :: ds).getLast? = (d :: ds).getLast?
    exact List.getLast?_cons_cons

theorem searchAux_doi_some :
    ∀ (cs : List Char) (prev : Option Char) (m : List Char),
      searchAux doiToks prev cs = some m →
      ∃ pre rest, cs = pre ++ rest ∧
        matchToks doiToks (lastOpt prev pre) rest = some m.length ∧
        m = rest.take m.length ∧
        ∀ pre2 rest2, cs = pre2 ++ rest2 → pre2.length < pre.length →
          matchToks doiToks (lastOpt prev pre2) rest2 = none := by
  intro cs
  induction cs with
  | nil =>
    intro prev m h
    rw [searchAux] at h
    rw [show matchToks doiToks prev [] = none from rfl] at h
    exact absurd h (by simp)
  | cons c cs2 ih =>
    intro prev m h
    rw [searchAux] at h
    rcases hm : matchToks doiToks prev (c :: cs2) with - | n
    · rw [hm] at h
      obtain ⟨pre, rest, hdec, hmat, htake, hmin⟩ := ih (some c) m h
      refine ⟨c :: pre, rest, by rw [List.cons_append, hdec], ?_, htake, ?_⟩
      · rw [lastOpt_cons]
        exact hmat
      · intro pre2 rest2 hdec2 hlen2
        cases pre2 with
        | nil =>
          simp only [List.nil_append] at hdec2
          rw [show lastOpt prev ([] : List Char) = prev from rfl, ← hdec2]
          exact hm
        | cons c2 pre2tail =>
          rw [List.cons_append] at hdec2
          injection hdec2 with hh1 hh2
          subst hh1
          rw [lastOpt_cons]
          refine hmin pre2tail rest2 hh2 ?_
          simp only [List.length_cons] at hlen2
          omega
    · rw [hm] at h
      simp only [Option.some.injEq] at h
      obtain ⟨hshape, hlen⟩ := matchToks_doi_sound prev (c :: cs2) n hm
      have hmlen : m.length = n := by
        rw [← h, List.length_take]
        omega
      refine ⟨[], c :: cs2, rfl, ?_, ?_, ?_⟩
      · rw [show lastOpt prev ([] : List Char) = prev from rfl, hmlen]
        exact hm
      · rw [hmlen, ← h]
      · intro pre2 rest2 hdec2 hlen2
        simp at hlen2

theorem searchAux_doi_none :
    ∀ (cs : List Char) (prev : Option Char), searchAux doiToks prev cs = none →
      ∀ pre rest, cs = pre ++ rest → matchToks doiToks (lastOpt prev pre) rest = none := by
  intro cs
  induction cs with
  | nil =>
    intro prev h pre rest hdec
    have hpre : pre = [] ∧ rest = [] := by
      constructor
      · exact List.eq_nil_of_length_eq_zero (by
          have := congrArg List.length hdec
          simp at this
          omega)
      · exact List.eq_nil_of_length_eq_zero (by
          have := congrArg List.length hdec
          simp at this
          omega)
    obtain ⟨rfl, rfl⟩ := hpre
    rfl
  | cons c cs2 ih =>
    intro prev h pre rest hdec
    rw [searchAux] at h
    rcases hm : matchToks doiToks prev (c :: cs2) with - | n
    · rw [hm] at h
      cases pre with
      | nil =>
        simp only [List.nil_append] at hdec
        rw [show lastOpt prev ([] : List Char) = prev from rfl, ← hdec]
        exact hm
      | cons c2 pre2 =>
        rw [List.cons_append] at hdec
        injection hdec with hh1 hh2
        subst hh1
        rw [lastOpt_cons]
        exact ih (some c) h pre2 rest hh2
    · rw [hm] at h
      exact absurd h (by simp)

/-- Claim C8: `find_doi` returns, for the leftmost position at which the
identifier pattern matches, the matched substring with trailing
characters in `).,;]}>` stripped, and `none` when no substring of the
text matches the pattern; in particular the two concrete examples of the
specification hold. -/
theorem find_doi_spec :
    find_doi "see 10.1000/xyz123." = some "10.1000/xyz123" ∧
    find_doi "no identifier here" = none ∧
    (∀ t s, find_doi t = some s →
      ∃ pre m post, t.data = pre ++ m ++ post ∧ DoiShape m ∧
        s.data = (m.reverse.dropWhile (· ∈ DOI_TRAIL)).reverse ∧
        ∀ pre2 m2 post2, t.data = pre2 ++ m2 ++ post2 → DoiShape m2 →
          pre.length ≤ pre2.length) ∧
    (∀ t, find_doi t = none →
      ∀ pre m post, t.data = pre ++ m ++ post → ¬ DoiShape m) := by
  refine ⟨by decide, by decide, ?_, ?_⟩
  · intro t s h
    rw [find_doi] at h
    rw [Option.map_eq_some'] at h
    obtain ⟨m0, hsearch, hs⟩ := h
    obtain ⟨pre, rest, hdec, hmat, htake, hmin⟩ := searchAux_doi_some t.data none m0 hsearch
    obtain ⟨hshape, hlen⟩ := matchToks_doi_sound _ rest m0.length hmat
    rw [← htake] at hshape
    refine ⟨pre, m0, rest.drop m0.length, ?_, hshape, ?_, ?_⟩
    · rw [hdec, List.append_assoc]
      congr 1
      conv_lhs => rw [← List.take_append_drop m0.length rest]
      rw [← htake]
    · rw [← hs]
    · intro pre2 m2 post2 hdec2 hshape2
      by_contra hlt
      push_neg at hlt
      have hnone := hmin pre2 (m2 ++ post2) (by rw [hdec2, List.append_assoc]) hlt
      exact matchToks_doi_complete _ m2 post2 hshape2 hnone
  · intro t h pre m post hdec hshape
    rw [find_doi, Option.map_eq_none'] at h
    have hnone := searchAux_doi_none t.data none h pre (m ++ post)
      (by rw [hdec, List.append_assoc])
    exact matchToks_doi_complete _ m post hshape hnone

/-- Closed instance of `find_doi_spec`: the decomposition produced for a
concrete document text. -/
theorem find_doi_spec_witness :
    find_doi "x 10.4567/ab" = some "10.4567/ab" ∧
    ∃ pre m post, ("x 10.4567/ab").data = pre ++ m ++ post ∧ DoiShape m := by
  refine ⟨by decide, ?_⟩
  obtain ⟨pre, m, post, hdec, hshape, -, -⟩ :=
    (find_doi_spec).2.2.1 "x 10.4567/ab" "10.4567/ab" (by decide)
  exact ⟨pre, m, post, hdec, hshape⟩

/-- Closed instance of `embedded_whitespace_double_provenance` on a
document whose embedded title and author are a single space. -/
theorem embedded_whitespace_double_provenance_witness :
    (stageDefaults "doc" (stageEmbedded ⟨some " ", some " "⟩ initState)).title = some "doc" ∧
    "title from embedded metadata" ∈
      (stageDefaults "doc" (stageEmbedded ⟨some " ", some " "⟩ initState)).log ∧
    "fallback: title from filename" ∈
      (stageDefaults "doc" (stageEmbedded ⟨some " ", some " "⟩ initState)).log := by
  obtain ⟨-, -, h3, h4, h5⟩ :=
    (embedded_whitespace_double_provenance ⟨some " ", some " "⟩ initState "doc" " "
      (by decide) (by decide)).1 rfl rfl
  exact ⟨h3, h4, h5⟩
